import Mathlib

/-!
Verification of the adversarial-search player (`my_custom_player.py`):
iterative-deepening alpha-beta minimax over an abstract game state, with a
liberty-count heuristic.  The game state consumed by the player (actions,
result, terminal_test, utility, locs, board) is embedded as a finitely
branching game tree; search values (Python floats, used only for comparison,
max and min, with the sentinels float("-inf") and float("inf")) are embedded
as integers extended with bottom and top elements.
-/

set_option maxHeartbeats 1000000

namespace Isolation

/-- Search values: integers with `⊥` (float("-inf")) and `⊤` (float("inf")). -/
abbrev XInt : Type := WithBot (WithTop ℤ)

/-- Embed a plain integer as a search value. -/
def XInt.ofInt (n : ℤ) : XInt := ((n : WithTop ℤ) : XInt)

/-- The abstract game state the player consumes: the bit-packed `board`, the
two player locations `locs` (`none` = unplaced), the `terminal_test` flag, the
two values of `utility` (for player 0 and player 1), and the list of legal
actions paired with the successor state `result` yields for each. -/
inductive GState : Type where
  | mk (board : Nat) (loc0 loc1 : Option Nat) (terminal : Bool) (util0 util1 : XInt)
      (children : List (Nat × GState)) : GState

def GState.board : GState → Nat
  | .mk b _ _ _ _ _ _ => b

def GState.locs : GState → Nat → Option Nat
  | .mk _ l0 l1 _ _ _ _, p => if p = 0 then l0 else l1

def GState.terminal_test : GState → Bool
  | .mk _ _ _ t _ _ _ => t

def GState.utility : GState → Nat → XInt
  | .mk _ _ _ _ u0 u1 _, p => if p = 0 then u0 else u1

def GState.children : GState → List (Nat × GState)
  | .mk _ _ _ _ _ _ c => c

/-- `state.actions()`: the actions in order. -/
def GState.actions (s : GState) : List Nat := s.children.map Prod.fst

/-- Python truthiness of a location (`not state.locs[player]`):
`None` and the integer `0` are falsy. -/
def pyFalsyLoc : Option Nat → Bool
  | none => true
  | some n => n == 0

/-- The 24 signed offsets of `CustomPlayer.liberty`, in source order, computed
from `width = 11`, `S = -width - 2`, `N = width + 2`, `W = 1`, `E = -1`:
`(S, N, W, E, N+W, N+E, S+W, S+E, 2N+2W, 2N+W, 2N, 2N+E, 2N+2E, N+2W, N+2E,
2W, 2E, S+2W, S+2E, 2S+2W, 2S+W, 2S, 2S+E, 2S+2E)`. -/
def libertyActions : List ℤ :=
  [-13, 13, 1, -1, 14, 12, -12, -14,
   28, 27, 26, 25, 24, 15, 11, 2, -2, -11, -15, -24, -25, -26, -27, -28]

/-- `CustomPlayer.liberty`: if `not state.locs[player]` return 24, else count
the offsets `d` with `(d + loc) > 0 and (state.board & (1 << (d + loc)))`. -/
def liberty (s : GState) (player : Nat) : Nat :=
  if pyFalsyLoc (s.locs player) then 24
  else
    match s.locs player with
    | none => 24
    | some loc =>
        libertyActions.countP
          (fun d => decide (0 < d + (loc : ℤ)) && s.board.testBit (d + (loc : ℤ)).toNat)

/-- `CustomPlayer.heuristic`: the player's liberty count minus the
opponent's. -/
def heuristic (player_id : Nat) (s : GState) : ℤ :=
  (liberty s player_id : ℤ) - (liberty s (1 - player_id) : ℤ)

mutual

/-- `CustomPlayer.min_value`: terminal utility first, then the depth cutoff
returning the heuristic, then the pruning loop over the successors
(`for action in actions: v = min(v, max_value(state.result(action), ...))`,
iterated here over the action/successor pairs). -/
def min_value (pid : Nat) (s : GState) (alpha beta : XInt) (depth : ℤ) : XInt :=
  if s.terminal_test then s.utility pid
  else if depth ≤ 0 then XInt.ofInt (heuristic pid s)
  else match s with
       | .mk _ _ _ _ _ _ children => minLoop pid children alpha beta depth ⊤
termination_by structural s

/-- The loop of `min_value`, starting from `v = float("inf")`: early return of
`v` when `v <= alpha`, otherwise `beta = min(beta, v)` and continue. -/
def minLoop (pid : Nat) (l : List (Nat × GState)) (alpha beta : XInt) (depth : ℤ)
    (v : XInt) : XInt :=
  match l with
  | [] => v
  | (_, c) :: rest =>
      let v' := min v (max_value pid c alpha beta (depth - 1))
      if v' ≤ alpha then v'
      else minLoop pid rest alpha (min beta v') depth v'
termination_by structural l

/-- `CustomPlayer.max_value`, symmetric to `min_value`. -/
def max_value (pid : Nat) (s : GState) (alpha beta : XInt) (depth : ℤ) : XInt :=
  if s.terminal_test then s.utility pid
  else if depth ≤ 0 then XInt.ofInt (heuristic pid s)
  else match s with
       | .mk _ _ _ _ _ _ children => maxLoop pid children alpha beta depth ⊥
termination_by structural s

/-- The loop of `max_value`, starting from `v = float("-inf")`: early return of
`v` when `v >= beta`, otherwise `alpha = max(alpha, v)` and continue. -/
def maxLoop (pid : Nat) (l : List (Nat × GState)) (alpha beta : XInt) (depth : ℤ)
    (v : XInt) : XInt :=
  match l with
  | [] => v
  | (_, c) :: rest =>
      let v' := max v (min_value pid c alpha beta (depth - 1))
      if beta ≤ v' then v'
      else maxLoop pid rest (max alpha v') beta depth v'
termination_by structural l

end

mutual

/-- Modelled from the spec: plain, prune-free depth-limited minimax (the
"value produced by exhaustive minimax without pruning"), minimizing side; same
terminal utility and same depth-0 heuristic as `min_value`. -/
def mmMin (pid : Nat) (s : GState) (depth : ℤ) : XInt :=
  if s.terminal_test then s.utility pid
  else if depth ≤ 0 then XInt.ofInt (heuristic pid s)
  else match s with
       | .mk _ _ _ _ _ _ children => mmMinList pid children depth
termination_by structural s

/-- Modelled from the spec: the exact minimum of the successor values. -/
def mmMinList (pid : Nat) (l : List (Nat × GState)) (depth : ℤ) : XInt :=
  match l with
  | [] => ⊤
  | (_, c) :: rest => min (mmMax pid c (depth - 1)) (mmMinList pid rest depth)
termination_by structural l

/-- Modelled from the spec: plain prune-free minimax, maximizing side. -/
def mmMax (pid : Nat) (s : GState) (depth : ℤ) : XInt :=
  if s.terminal_test then s.utility pid
  else if depth ≤ 0 then XInt.ofInt (heuristic pid s)
  else match s with
       | .mk _ _ _ _ _ _ children => mmMaxList pid children depth
termination_by structural s

/-- Modelled from the spec: the exact maximum of the successor values. -/
def mmMaxList (pid : Nat) (l : List (Nat × GState)) (depth : ℤ) : XInt :=
  match l with
  | [] => ⊥
  | (_, c) :: rest => max (mmMin pid c (depth - 1)) (mmMaxList pid rest depth)
termination_by structural l

end

/-- The loop of `CustomPlayer.decision`: for each action, evaluate
`min_value(state.result(action), alpha, beta, depth - 1)`; replace the best
move only on `v > best_score`; then `alpha = max(alpha, v)`. -/
def decisionLoop (pid : Nat) (depth : ℤ) (l : List (Nat × GState))
    (alpha beta best_score : XInt) (best_move : Option Nat) : Option Nat :=
  match l with
  | [] => best_move
  | (a, c) :: rest =>
      let v := min_value pid c alpha beta (depth - 1)
      if best_score < v then decisionLoop pid depth rest (max alpha v) beta v (some a)
      else decisionLoop pid depth rest (max alpha v) beta best_score best_move

/-- Python truthiness of `best_move`: `None` and the action `0` are falsy. -/
def pyTruthyMove : Option Nat → Bool
  | none => false
  | some n => !(n == 0)

/-- `CustomPlayer.decision`: run the root loop with `alpha = float("-inf")`,
`beta = float("inf")`, `best_score = float("-inf")`, `best_move = None`, and
return `best_move if best_move else state.actions()[0]` (the indexing of an
empty list, which would raise, is `none` here). -/
def decision (pid : Nat) (s : GState) (depth : ℤ) : Option Nat :=
  let best_move := decisionLoop pid depth s.children ⊥ ⊤ ⊥ none
  if pyTruthyMove best_move then best_move else s.actions.head?

/-- `CustomPlayer.get_action`: publish `random.choice(state.actions())`
(`pick` selects the random index; on an empty list `random.choice` raises
IndexError, embedded as `Except.error`), then publish `decision(state, depth)`
for `depth = 1, 2, ...`; the external timer stops the loop after `fuel`
iterations.  The result is the sequence of published queue entries. -/
def get_action (pid : Nat) (s : GState) (pick fuel : Nat) :
    Except Unit (List (Option Nat)) :=
  if s.actions.isEmpty then Except.error ()
  else Except.ok ((s.actions[pick % s.actions.length]?) ::
    (List.range fuel).map (fun i => decision pid s ((i : ℤ) + 1)))

/-- The plain minimax value of each root action's successor, in order. -/
def rootVals (pid : Nat) (s : GState) (d : ℤ) : List XInt :=
  s.children.map (fun c => mmMin pid c.2 (d - 1))

/-- The best (maximal) plain minimax value over the root actions, starting
from the `float("-inf")` sentinel. -/
def bestVal (pid : Nat) (s : GState) (d : ℤ) : XInt :=
  (rootVals pid s d).foldl max ⊥

section UnfoldLemmas

theorem min_value_terminal (pid : Nat) (s : GState) (alpha beta : XInt) (d : ℤ)
    (ht : s.terminal_test = true) : min_value pid s alpha beta d = s.utility pid := by
  cases s with
  | mk b l0 l1 t u0 u1 ch =>
      simp only [GState.terminal_test] at ht
      subst ht
      rw [min_value]
      simp [GState.terminal_test]

theorem max_value_terminal (pid : Nat) (s : GState) (alpha beta : XInt) (d : ℤ)
    (ht : s.terminal_test = true) : max_value pid s alpha beta d = s.utility pid := by
  cases s with
  | mk b l0 l1 t u0 u1 ch =>
      simp only [GState.terminal_test] at ht
      subst ht
      rw [max_value]
      simp [GState.terminal_test]

theorem mmMin_terminal (pid : Nat) (s : GState) (d : ℤ)
    (ht : s.terminal_test = true) : mmMin pid s d = s.utility pid := by
  cases s with
  | mk b l0 l1 t u0 u1 ch =>
      simp only [GState.terminal_test] at ht
      subst ht
      rw [mmMin]
      simp [GState.terminal_test]

theorem mmMax_terminal (pid : Nat) (s : GState) (d : ℤ)
    (ht : s.terminal_test = true) : mmMax pid s d = s.utility pid := by
  cases s with
  | mk b l0 l1 t u0 u1 ch =>
      simp only [GState.terminal_test] at ht
      subst ht
      rw [mmMax]
      simp [GState.terminal_test]

theorem min_value_heuristic (pid : Nat) (s : GState) (alpha beta : XInt) (d : ℤ)
    (ht : s.terminal_test = false) (hd : d ≤ 0) :
    min_value pid s alpha beta d = XInt.ofInt (heuristic pid s) := by
  cases s with
  | mk b l0 l1 t u0 u1 ch =>
      simp only [GState.terminal_test] at ht
      subst ht
      rw [min_value]
      simp [GState.terminal_test, hd]

theorem max_value_heuristic (pid : Nat) (s : GState) (alpha beta : XInt) (d : ℤ)
    (ht : s.terminal_test = false) (hd : d ≤ 0) :
    max_value pid s alpha beta d = XInt.ofInt (heuristic pid s) := by
  cases s with
  | mk b l0 l1 t u0 u1 ch =>
      simp only [GState.terminal_test] at ht
      subst ht
      rw [max_value]
      simp [GState.terminal_test, hd]

theorem mmMin_heuristic (pid : Nat) (s : GState) (d : ℤ)
    (ht : s.terminal_test = false) (hd : d ≤ 0) :
    mmMin pid s d = XInt.ofInt (heuristic pid s) := by
  cases s with
  | mk b l0 l1 t u0 u1 ch =>
      simp only [GState.terminal_test] at ht
      subst ht
      rw [mmMin]
      simp [GState.terminal_test, hd]

theorem mmMax_heuristic (pid : Nat) (s : GState) (d : ℤ)
    (ht : s.terminal_test = false) (hd : d ≤ 0) :
    mmMax pid s d = XInt.ofInt (heuristic pid s) := by
  cases s with
  | mk b l0 l1 t u0 u1 ch =>
      simp only [GState.terminal_test] at ht
      subst ht
      rw [mmMax]
      simp [GState.terminal_test, hd]

theorem min_value_eq_loop (pid : Nat) (s : GState) (alpha beta : XInt) (d : ℤ)
    (ht : s.terminal_test = false) (hd : ¬ d ≤ 0) :
    min_value pid s alpha beta d = minLoop pid s.children alpha beta d ⊤ := by
  cases s with
  | mk b l0 l1 t u0 u1 ch =>
      simp only [GState.terminal_test] at ht
      subst ht
      rw [min_value]
      simp [GState.terminal_test, GState.children, hd]

theorem max_value_eq_loop (pid : Nat) (s : GState) (alpha beta : XInt) (d : ℤ)
    (ht : s.terminal_test = false) (hd : ¬ d ≤ 0) :
    max_value pid s alpha beta d = maxLoop pid s.children alpha beta d ⊥ := by
  cases s with
  | mk b l0 l1 t u0 u1 ch =>
      simp only [GState.terminal_test] at ht
      subst ht
      rw [max_value]
      simp [GState.terminal_test, GState.children, hd]

theorem mmMin_eq_list (pid : Nat) (s : GState) (d : ℤ)
    (ht : s.terminal_test = false) (hd : ¬ d ≤ 0) :
    mmMin pid s d = mmMinList pid s.children d := by
  cases s with
  | mk b l0 l1 t u0 u1 ch =>
      simp only [GState.terminal_test] at ht
      subst ht
      rw [mmMin]
      simp [GState.terminal_test, GState.children, hd]

theorem mmMax_eq_list (pid : Nat) (s : GState) (d : ℤ)
    (ht : s.terminal_test = false) (hd : ¬ d ≤ 0) :
    mmMax pid s d = mmMaxList pid s.children d := by
  cases s with
  | mk b l0 l1 t u0 u1 ch =>
      simp only [GState.terminal_test] at ht
      subst ht
      rw [mmMax]
      simp [GState.terminal_test, GState.children, hd]

end UnfoldLemmas

section Helpers

theorem sizeOf_snd_lt_of_mem_children {s : GState} {c : Nat × GState}
    (h : c ∈ s.children) : sizeOf c.2 < sizeOf s := by
  cases s with
  | mk b l0 l1 t u0 u1 ch =>
      simp only [GState.children] at h
      have h1 : sizeOf c < sizeOf ch := List.sizeOf_lt_of_mem h
      cases c with
      | mk a st => simp at h1 ⊢; omega

theorem le_foldl_max {α : Type} [LinearOrder α] (l : List α) (b : α) :
    b ≤ l.foldl max b := by
  induction l generalizing b with
  | nil => exact le_refl b
  | cons x xs ih => exact le_trans (le_max_left b x) (ih (max b x))

theorem foldl_max_le {α : Type} [LinearOrder α] (l : List α) (b c : α)
    (hb : b ≤ c) (hl : ∀ x ∈ l, x ≤ c) : l.foldl max b ≤ c := by
  induction l generalizing b with
  | nil => exact hb
  | cons x xs ih =>
      exact ih (max b x) (max_le hb (hl x (List.mem_cons_self x xs))) (fun y hy => hl y (List.mem_cons_of_mem x hy))

theorem mem_le_foldl_max {α : Type} [LinearOrder α] (l : List α) (b : α)
    (x : α) (hx : x ∈ l) : x ≤ l.foldl max b := by
  induction l generalizing b with
  | nil => cases hx
  | cons y ys ih =>
      rcases List.mem_cons.mp hx with h | h
      · subst h
        exact le_trans (le_max_right b x) (le_foldl_max ys (max b x))
      · exact ih (max b y) h

theorem minLoop_le_acc (pid : Nat) (l : List (Nat × GState)) (alpha beta v : XInt)
    (d : ℤ) : minLoop pid l alpha beta d v ≤ v := by
  induction l generalizing beta v with
  | nil => rw [minLoop]
  | cons c rest ih =>
      cases c with
      | mk a st =>
          rw [minLoop]
          by_cases h : min v (max_value pid st alpha beta (d - 1)) ≤ alpha
          · simp only [h, if_true]
            exact min_le_left _ _
          · simp only [h, if_false]
            exact le_trans (ih _ _) (min_le_left _ _)

theorem le_maxLoop_acc (pid : Nat) (l : List (Nat × GState)) (alpha beta v : XInt)
    (d : ℤ) : v ≤ maxLoop pid l alpha beta d v := by
  induction l generalizing alpha v with
  | nil => rw [maxLoop]
  | cons c rest ih =>
      cases c with
      | mk a st =>
          rw [maxLoop]
          by_cases h : beta ≤ max v (min_value pid st alpha beta (d - 1))
          · simp only [h, if_true]
            exact le_max_left _ _
          · simp only [h, if_false]
            exact le_trans (le_max_left _ _) (ih _ _)

end Helpers

section AlphaBeta

theorem min_eq_snd_of_lt {α : Type} [LinearOrder α] {v f : α} (h : min v f < v) :
    min v f = f := by
  rcases min_cases v f with ⟨h1, _⟩ | ⟨h1, _⟩
  · rw [h1] at h
    exact absurd h (lt_irrefl v)
  · exact h1

theorem max_eq_snd_of_lt {α : Type} [LinearOrder α] {v f : α} (h : v < max v f) :
    max v f = f := by
  rcases max_cases v f with ⟨h1, _⟩ | ⟨h1, _⟩
  · rw [h1] at h
    exact absurd h (lt_irrefl v)
  · exact h1

/-- Fail-soft correctness of `min_value` at one state: inside the window the
alpha-beta value is exact, a fail-low value is an upper bound on the plain
minimax value, and a fail-high value is a lower bound. -/
def MinSpecP (pid : Nat) (s : GState) : Prop :=
  ∀ (alpha beta : XInt) (d : ℤ), alpha < beta →
    (alpha < min_value pid s alpha beta d → min_value pid s alpha beta d ≤ mmMin pid s d) ∧
    (min_value pid s alpha beta d < beta → mmMin pid s d ≤ min_value pid s alpha beta d)

/-- Fail-soft correctness of `max_value` at one state. -/
def MaxSpecP (pid : Nat) (s : GState) : Prop :=
  ∀ (alpha beta : XInt) (d : ℤ), alpha < beta →
    (alpha < max_value pid s alpha beta d → max_value pid s alpha beta d ≤ mmMax pid s d) ∧
    (max_value pid s alpha beta d < beta → mmMax pid s d ≤ max_value pid s alpha beta d)

theorem minLoop_spec (pid : Nat) (d : ℤ) (l : List (Nat × GState))
    (hl : ∀ c ∈ l, MaxSpecP pid c.2) :
    ∀ (alpha beta v : XInt), alpha < beta → beta ≤ v →
      (alpha < minLoop pid l alpha beta d v →
        minLoop pid l alpha beta d v ≤ min v (mmMinList pid l d)) ∧
      (minLoop pid l alpha beta d v < beta →
        min v (mmMinList pid l d) ≤ minLoop pid l alpha beta d v) := by
  induction l with
  | nil =>
      intro alpha beta v hab hbv
      rw [minLoop, mmMinList]
      constructor
      · intro _
        exact le_min (le_refl v) le_top
      · intro hvb
        exact absurd hvb (not_lt.mpr hbv)
  | cons c rest ih =>
      obtain ⟨a, st⟩ := c
      intro alpha beta v hab hbv
      have hst : MaxSpecP pid st := hl (a, st) (List.mem_cons_self _ _)
      have hrest : ∀ c ∈ rest, MaxSpecP pid c.2 :=
        fun c hc => hl c (List.mem_cons_of_mem _ hc)
      obtain ⟨h1c, h2c⟩ := hst alpha beta (d - 1) hab
      have hloop : minLoop pid ((a, st) :: rest) alpha beta d v =
          (if min v (max_value pid st alpha beta (d - 1)) ≤ alpha
           then min v (max_value pid st alpha beta (d - 1))
           else minLoop pid rest alpha
                  (min beta (min v (max_value pid st alpha beta (d - 1)))) d
                  (min v (max_value pid st alpha beta (d - 1)))) := rfl
      have hmm : mmMinList pid ((a, st) :: rest) d =
          min (mmMax pid st (d - 1)) (mmMinList pid rest d) := rfl
      set f := max_value pid st alpha beta (d - 1) with hfdef
      set m := mmMax pid st (d - 1) with hmdef
      set M := mmMinList pid rest d with hMdef
      rw [hloop, hmm]
      by_cases hcut : min v f ≤ alpha
      · rw [if_pos hcut]
        constructor
        · intro h
          exact absurd h (not_lt.mpr hcut)
        · intro hvb
          have hv'v : min v f < v := lt_of_le_of_lt hcut (lt_of_lt_of_le hab hbv)
          have hveq : min v f = f := min_eq_snd_of_lt hv'v
          have hfb : f < beta := hveq ▸ hvb
          have hmf : m ≤ f := h2c hfb
          calc min v (min m M) ≤ min m M := min_le_right _ _
            _ ≤ m := min_le_left _ _
            _ ≤ f := hmf
            _ = min v f := hveq.symm
      · rw [if_neg hcut]
        have hav : alpha < min v f := not_le.mp hcut
        have hab2 : alpha < min beta (min v f) := lt_min hab hav
        have hbv2 : min beta (min v f) ≤ min v f := min_le_right _ _
        obtain ⟨ih1, ih2⟩ := ih hrest alpha (min beta (min v f)) (min v f) hab2 hbv2
        set F := minLoop pid rest alpha (min beta (min v f)) d (min v f) with hFdef
        constructor
        · intro hαF
          have h1 := ih1 hαF
          have hαf : alpha < f := lt_of_lt_of_le hav (min_le_right v f)
          have hfm : f ≤ m := h1c hαf
          have hFv : F ≤ v := le_trans h1 (le_trans (min_le_left _ _) (min_le_left _ _))
          have hFf : F ≤ f := le_trans h1 (le_trans (min_le_left _ _) (min_le_right _ _))
          have hFM : F ≤ M := le_trans h1 (min_le_right _ _)
          exact le_min hFv (le_min (le_trans hFf hfm) hFM)
        · intro hFb
          have hFv' : F ≤ min v f := minLoop_le_acc pid rest alpha _ _ d
          rcases lt_or_eq_of_le hFv' with hlt | heq
          · have hFb2 : F < min beta (min v f) := lt_min hFb hlt
            have h2 := ih2 hFb2
            have hM : M ≤ F := by
              rcases min_le_iff.mp h2 with h | h
              · exact absurd h (not_le.mpr hlt)
              · exact h
            exact le_trans (le_trans (min_le_right _ _) (min_le_right _ _)) hM
          · have hvfb : min v f < beta := heq ▸ hFb
            have hv'v : min v f < v := lt_of_lt_of_le hvfb hbv
            have hveq : min v f = f := min_eq_snd_of_lt hv'v
            have hfb : f < beta := hveq ▸ hvfb
            have hmf : m ≤ f := h2c hfb
            rw [heq, hveq]
            exact le_trans (le_trans (min_le_right _ _) (min_le_left _ _)) hmf

theorem maxLoop_spec (pid : Nat) (d : ℤ) (l : List (Nat × GState))
    (hl : ∀ c ∈ l, MinSpecP pid c.2) :
    ∀ (alpha beta v : XInt), alpha < beta → v ≤ alpha →
      (alpha < maxLoop pid l alpha beta d v →
        maxLoop pid l alpha beta d v ≤ max v (mmMaxList pid l d)) ∧
      (maxLoop pid l alpha beta d v < beta →
        max v (mmMaxList pid l d) ≤ maxLoop pid l alpha beta d v) := by
  induction l with
  | nil =>
      intro alpha beta v hab hva
      rw [maxLoop, mmMaxList]
      constructor
      · intro hav
        exact absurd hav (not_lt.mpr hva)
      · intro _
        exact max_le (le_refl v) bot_le
  | cons c rest ih =>
      obtain ⟨a, st⟩ := c
      intro alpha beta v hab hva
      have hst : MinSpecP pid st := hl (a, st) (List.mem_cons_self _ _)
      have hrest : ∀ c ∈ rest, MinSpecP pid c.2 :=
        fun c hc => hl c (List.mem_cons_of_mem _ hc)
      obtain ⟨h1c, h2c⟩ := hst alpha beta (d - 1) hab
      have hloop : maxLoop pid ((a, st) :: rest) alpha beta d v =
          (if beta ≤ max v (min_value pid st alpha beta (d - 1))
           then max v (min_value pid st alpha beta (d - 1))
           else maxLoop pid rest
                  (max alpha (max v (min_value pid st alpha beta (d - 1)))) beta d
                  (max v (min_value pid st alpha beta (d - 1)))) := rfl
      have hmm : mmMaxList pid ((a, st) :: rest) d =
          max (mmMin pid st (d - 1)) (mmMaxList pid rest d) := rfl
      set f := min_value pid st alpha beta (d - 1) with hfdef
      set m := mmMin pid st (d - 1) with hmdef
      set Mx := mmMaxList pid rest d with hMdef
      rw [hloop, hmm]
      by_cases hcut : beta ≤ max v f
      · rw [if_pos hcut]
        constructor
        · intro hαv'
          have hvv' : v < max v f := lt_of_le_of_lt hva (lt_of_lt_of_le hab hcut)
          have hveq : max v f = f := max_eq_snd_of_lt hvv'
          have hαf : alpha < f := hveq ▸ hαv'
          have hfm : f ≤ m := h1c hαf
          calc max v f = f := hveq
            _ ≤ m := hfm
            _ ≤ max m Mx := le_max_left _ _
            _ ≤ max v (max m Mx) := le_max_right _ _
        · intro hvb
          exact absurd hvb (not_lt.mpr hcut)
      · rw [if_neg hcut]
        have hv'b : max v f < beta := not_le.mp hcut
        have hab2 : max alpha (max v f) < beta := max_lt hab hv'b
        have hva2 : max v f ≤ max alpha (max v f) := le_max_right _ _
        obtain ⟨ih1, ih2⟩ := ih hrest (max alpha (max v f)) beta (max v f) hab2 hva2
        set F := maxLoop pid rest (max alpha (max v f)) beta d (max v f) with hFdef
        constructor
        · intro hαF
          have hv'F : max v f ≤ F := le_maxLoop_acc pid rest _ beta _ d
          rcases lt_or_eq_of_le hv'F with hlt | heq
          · have hmax : max alpha (max v f) < F := max_lt hαF hlt
            have h1 := ih1 hmax
            have hFMx : F ≤ Mx := by
              rcases le_max_iff.mp h1 with h | h
              · exact absurd h (not_le.mpr hlt)
              · exact h
            exact le_trans hFMx (le_trans (le_max_right m Mx) (le_max_right v _))
          · rw [← heq]
            by_cases hαf : alpha < f
            · have hfm := h1c hαf
              exact max_le (le_max_left v _)
                (le_trans hfm (le_trans (le_max_left m Mx) (le_max_right v _)))
            · have hv'α : max v f ≤ alpha := max_le hva (not_lt.mp hαf)
              rw [← heq] at hαF
              exact absurd hαF (not_lt.mpr hv'α)
        · intro hFb
          have h2 := ih2 hFb
          have hv'F : max v f ≤ F := le_trans (le_max_left _ _) h2
          have hMxF : Mx ≤ F := le_trans (le_max_right _ _) h2
          have hvF : v ≤ F := le_trans (le_max_left v f) hv'F
          have hfF : f ≤ F := le_trans (le_max_right v f) hv'F
          have hfb : f < beta := lt_of_le_of_lt hfF hFb
          have hmf : m ≤ f := h2c hfb
          exact max_le hvF (max_le (le_trans hmf hfF) hMxF)

theorem minspec_of_children (pid : Nat) (s : GState)
    (h : ∀ c ∈ s.children, MaxSpecP pid c.2) : MinSpecP pid s := by
  intro alpha beta d hab
  by_cases ht : s.terminal_test
  · rw [min_value_terminal pid s alpha beta d ht, mmMin_terminal pid s d ht]
    exact ⟨fun _ => le_refl _, fun _ => le_refl _⟩
  · have ht' : s.terminal_test = false := by simpa using ht
    by_cases hd : d ≤ 0
    · rw [min_value_heuristic pid s alpha beta d ht' hd, mmMin_heuristic pid s d ht' hd]
      exact ⟨fun _ => le_refl _, fun _ => le_refl _⟩
    · rw [min_value_eq_loop pid s alpha beta d ht' hd, mmMin_eq_list pid s d ht' hd]
      obtain ⟨h1, h2⟩ := minLoop_spec pid d s.children h alpha beta ⊤ hab le_top
      constructor
      · intro hα
        have h3 := h1 hα
        rwa [min_eq_right le_top] at h3
      · intro hβ
        have h3 := h2 hβ
        rwa [min_eq_right le_top] at h3

theorem maxspec_of_children (pid : Nat) (s : GState)
    (h : ∀ c ∈ s.children, MinSpecP pid c.2) : MaxSpecP pid s := by
  intro alpha beta d hab
  by_cases ht : s.terminal_test
  · rw [max_value_terminal pid s alpha beta d ht, mmMax_terminal pid s d ht]
    exact ⟨fun _ => le_refl _, fun _ => le_refl _⟩
  · have ht' : s.terminal_test = false := by simpa using ht
    by_cases hd : d ≤ 0
    · rw [max_value_heuristic pid s alpha beta d ht' hd, mmMax_heuristic pid s d ht' hd]
      exact ⟨fun _ => le_refl _, fun _ => le_refl _⟩
    · rw [max_value_eq_loop pid s alpha beta d ht' hd, mmMax_eq_list pid s d ht' hd]
      obtain ⟨h1, h2⟩ := maxLoop_spec pid d s.children h alpha beta ⊥ hab bot_le
      constructor
      · intro hα
        have h3 := h1 hα
        rwa [max_eq_right bot_le] at h3
      · intro hβ
        have h3 := h2 hβ
        rwa [max_eq_right bot_le] at h3

theorem both_specs (pid : Nat) :
    ∀ (n : Nat) (s : GState), sizeOf s < n → MinSpecP pid s ∧ MaxSpecP pid s := by
  intro n
  induction n with
  | zero =>
      intro s h
      exact absurd h (Nat.not_lt_zero _)
  | succ n ih =>
      intro s hs
      have hch : ∀ c ∈ s.children, MinSpecP pid c.2 ∧ MaxSpecP pid c.2 := by
        intro c hc
        have h1 := sizeOf_snd_lt_of_mem_children hc
        exact ih c.2 (by omega)
      exact ⟨minspec_of_children pid s (fun c hc => (hch c hc).2),
             maxspec_of_children pid s (fun c hc => (hch c hc).1)⟩

/-- Every state satisfies both fail-soft correctness predicates. -/
theorem minmax_spec (pid : Nat) (s : GState) : MinSpecP pid s ∧ MaxSpecP pid s :=
  both_specs pid (sizeOf s + 1) s (Nat.lt_succ_self _)

end AlphaBeta

section DecisionLoop

theorem decisionLoop_cons (pid : Nat) (d : ℤ) (a : Nat) (st : GState)
    (rest : List (Nat × GState)) (alpha beta bs : XInt) (bm : Option Nat) :
    decisionLoop pid d ((a, st) :: rest) alpha beta bs bm =
      (if bs < min_value pid st alpha beta (d - 1)
       then decisionLoop pid d rest (max alpha (min_value pid st alpha beta (d - 1)))
              beta (min_value pid st alpha beta (d - 1)) (some a)
       else decisionLoop pid d rest (max alpha (min_value pid st alpha beta (d - 1)))
              beta bs bm) := rfl

theorem decisionLoop_mem (pid : Nat) (d : ℤ) :
    ∀ (l : List (Nat × GState)) (alpha beta bs : XInt) (bm : Option Nat),
      decisionLoop pid d l alpha beta bs bm = bm ∨
      ∃ c ∈ l, decisionLoop pid d l alpha beta bs bm = some c.1 := by
  intro l
  induction l with
  | nil =>
      intro alpha beta bs bm
      left
      rfl
  | cons c rest ih =>
      obtain ⟨a, st⟩ := c
      intro alpha beta bs bm
      rw [decisionLoop_cons]
      by_cases h : bs < min_value pid st alpha beta (d - 1)
      · rw [if_pos h]
        rcases ih (max alpha (min_value pid st alpha beta (d - 1))) beta
            (min_value pid st alpha beta (d - 1)) (some a) with h1 | ⟨c, hc, h2⟩
        · right
          exact ⟨(a, st), List.mem_cons_self _ _, h1⟩
        · right
          exact ⟨c, List.mem_cons_of_mem _ hc, h2⟩
      · rw [if_neg h]
        rcases ih (max alpha (min_value pid st alpha beta (d - 1))) beta bs bm with
          h1 | ⟨c, hc, h2⟩
        · left
          exact h1
        · right
          exact ⟨c, List.mem_cons_of_mem _ hc, h2⟩

theorem decisionLoop_allBot (pid : Nat) (d : ℤ) :
    ∀ (l : List (Nat × GState)) (bm : Option Nat),
      (∀ c ∈ l, min_value pid c.2 ⊥ ⊤ (d - 1) = ⊥) →
      decisionLoop pid d l ⊥ ⊤ ⊥ bm = bm := by
  intro l
  induction l with
  | nil =>
      intro bm _
      rfl
  | cons c rest ih =>
      obtain ⟨a, st⟩ := c
      intro bm hall
      have h0 : min_value pid st ⊥ ⊤ (d - 1) = ⊥ := hall (a, st) (List.mem_cons_self _ _)
      rw [decisionLoop_cons, h0]
      rw [if_neg (lt_irrefl ⊥)]
      have hmax : max (⊥ : XInt) ⊥ = ⊥ := max_self ⊥
      rw [hmax]
      exact ih bm (fun c hc => hall c (List.mem_cons_of_mem _ hc))

theorem decisionLoop_invariant (pid : Nat) (d : ℤ) :
    ∀ (l : List (Nat × GState)), (∀ c ∈ l, MinSpecP pid c.2) →
    ∀ (bs : XInt) (bm : Option Nat),
      (((l.map (fun c => mmMin pid c.2 (d - 1))).foldl max bs = bs →
          decisionLoop pid d l bs ⊤ bs bm = bm) ∧
       (bs < (l.map (fun c => mmMin pid c.2 (d - 1))).foldl max bs →
          ∃ c, l.find? (fun c =>
                 mmMin pid c.2 (d - 1) ==
                   (l.map (fun c => mmMin pid c.2 (d - 1))).foldl max bs) = some c ∧
            decisionLoop pid d l bs ⊤ bs bm = some c.1)) := by
  intro l
  induction l with
  | nil =>
      intro _ bs bm
      constructor
      · intro _
        rfl
      · intro h
        exact absurd h (lt_irrefl bs)
  | cons c rest ih =>
      obtain ⟨a, st⟩ := c
      intro hl bs bm
      have hspec : MinSpecP pid st := hl (a, st) (List.mem_cons_self _ _)
      have hrest : ∀ c ∈ rest, MinSpecP pid c.2 :=
        fun c hc => hl c (List.mem_cons_of_mem _ hc)
      set v := min_value pid st bs ⊤ (d - 1) with hvdef
      set m := mmMin pid st (d - 1) with hmdef
      simp only [List.map_cons, List.foldl_cons]
      by_cases hbs : bs < v
      · -- strict improvement: the evaluated value is exact and becomes the best
        have hbt : bs < (⊤ : XInt) := lt_of_lt_of_le hbs le_top
        obtain ⟨h1c, h2c⟩ := hspec bs ⊤ (d - 1) hbt
        have hvm : v ≤ m := h1c hbs
        have hmv : m ≤ v := by
          rcases lt_or_eq_of_le (le_top : v ≤ (⊤ : XInt)) with hlt | heq
          · exact h2c hlt
          · rw [heq]
            exact le_top
        have hm : m = v := le_antisymm hmv hvm
        have hmaxbm : max bs m = v := by
          rw [hm]
          exact max_eq_right (le_of_lt hbs)
        have hstep : decisionLoop pid d ((a, st) :: rest) bs ⊤ bs bm =
            decisionLoop pid d rest v ⊤ v (some a) := by
          rw [decisionLoop_cons, if_pos hbs, max_eq_right (le_of_lt hbs)]
        rw [hmaxbm, hstep]
        obtain ⟨ih1, ih2⟩ := ih hrest v (some a)
        have hvM : v ≤ (rest.map (fun c => mmMin pid c.2 (d - 1))).foldl max v :=
          le_foldl_max _ v
        constructor
        · intro hM
          exact absurd (lt_of_lt_of_le hbs (hM ▸ hvM)) (lt_irrefl bs)
        · intro _
          rcases lt_or_eq_of_le hvM with hlt | heqM
          · obtain ⟨c, hf, hF⟩ := ih2 hlt
            refine ⟨c, ?_, hF⟩
            have hmv2 : mmMin pid st (d - 1) = v := hm
            have hpred : (mmMin pid st (d - 1) ==
                List.foldl max v (List.map (fun c => mmMin pid c.2 (d - 1)) rest)) = false := by
              rw [hmv2]
              exact beq_eq_false_iff_ne.mpr (ne_of_lt hlt)
            rw [List.find?_cons_of_neg rest (by
              show ¬ ((mmMin pid st (d - 1) ==
                List.foldl max v (List.map (fun c => mmMin pid c.2 (d - 1)) rest)) = true)
              rw [hpred]
              exact Bool.false_ne_true)]
            exact hf
          · refine ⟨(a, st), ?_, ih1 heqM.symm⟩
            apply List.find?_cons_of_pos
            show (mmMin pid st (d - 1) ==
              List.foldl max v (List.map (fun c => mmMin pid c.2 (d - 1)) rest)) = true
            have hmv2 : mmMin pid st (d - 1) = v := hm
            rw [hmv2, ← heqM]
            exact beq_self_eq_true v
      · -- no improvement: the true value is below the current best
        have hvbs : v ≤ bs := not_lt.mp hbs
        have hmbs : m ≤ bs := by
          rcases eq_or_lt_of_le (le_top : bs ≤ (⊤ : XInt)) with heqT | hltT
          · rw [heqT]
            exact le_top
          · obtain ⟨h1c, h2c⟩ := hspec bs ⊤ (d - 1) hltT
            exact le_trans (h2c (lt_of_le_of_lt hvbs hltT)) hvbs
        have hmaxbm : max bs m = bs := max_eq_left hmbs
        have hstep : decisionLoop pid d ((a, st) :: rest) bs ⊤ bs bm =
            decisionLoop pid d rest bs ⊤ bs bm := by
          rw [decisionLoop_cons, if_neg hbs, max_eq_left hvbs]
        rw [hmaxbm, hstep]
        obtain ⟨ih1, ih2⟩ := ih hrest bs bm
        constructor
        · exact ih1
        · intro hbsM
          obtain ⟨c, hf, hF⟩ := ih2 hbsM
          refine ⟨c, ?_, hF⟩
          have hmm2 : mmMin pid st (d - 1) = m := rfl
          have hpred2 : (mmMin pid st (d - 1) ==
              List.foldl max bs (List.map (fun c => mmMin pid c.2 (d - 1)) rest)) = false := by
            rw [hmm2]
            exact beq_eq_false_iff_ne.mpr (ne_of_lt (lt_of_le_of_lt hmbs hbsM))
          rw [List.find?_cons_of_neg rest (by
            show ¬ ((mmMin pid st (d - 1) ==
              List.foldl max bs (List.map (fun c => mmMin pid c.2 (d - 1)) rest)) = true)
            rw [hpred2]
            exact Bool.false_ne_true)]
          exact hf

end DecisionLoop

section Decision

theorem decision_eq (pid : Nat) (s : GState) (d : ℤ) :
    decision pid s d =
      (if pyTruthyMove (decisionLoop pid d s.children ⊥ ⊤ ⊥ none)
       then decisionLoop pid d s.children ⊥ ⊤ ⊥ none
       else s.actions.head?) := rfl

theorem bestVal_eq (pid : Nat) (s : GState) (d : ℤ) :
    bestVal pid s d =
      (s.children.map (fun c => mmMin pid c.2 (d - 1))).foldl max ⊥ := rfl

/-- The move returned by `decision` is the first action whose successor has
the maximal plain minimax value, provided all actions are truthy (nonzero). -/
theorem decision_finds_first_best (pid : Nat) (s : GState) (d : ℤ)
    (hne : s.actions ≠ []) (htr : ∀ a ∈ s.actions, a ≠ 0) :
    ∃ c, s.children.find?
        (fun c => mmMin pid c.2 (d - 1) == bestVal pid s d) = some c ∧
      decision pid s d = some c.1 := by
  have hch : ∀ c ∈ s.children, MinSpecP pid c.2 := fun c _ => (minmax_spec pid c.2).1
  obtain ⟨inv1, inv2⟩ := decisionLoop_invariant pid d s.children hch ⊥ none
  rcases eq_or_lt_of_le (bot_le :
      (⊥ : XInt) ≤ (s.children.map (fun c => mmMin pid c.2 (d - 1))).foldl max ⊥) with
    heq | hlt
  · have hF : decisionLoop pid d s.children ⊥ ⊤ ⊥ none = none := inv1 heq.symm
    have hchne : s.children ≠ [] := by
      intro h
      apply hne
      rw [GState.actions, h]
      rfl
    obtain ⟨c0, rest, hc0⟩ : ∃ c0 rest, s.children = c0 :: rest := by
      cases hcc : s.children with
      | nil => exact absurd hcc hchne
      | cons x xs => exact ⟨x, xs, rfl⟩
    have hval : ∀ x ∈ s.children.map (fun c => mmMin pid c.2 (d - 1)), x = ⊥ := by
      intro x hx
      have hle := mem_le_foldl_max _ (⊥ : XInt) x hx
      rw [← heq] at hle
      exact le_bot_iff.mp hle
    have hc0v : mmMin pid c0.2 (d - 1) = ⊥ := by
      apply hval
      rw [hc0]
      exact List.mem_map_of_mem _ (List.mem_cons_self _ _)
    refine ⟨c0, ?_, ?_⟩
    · rw [hc0]
      apply List.find?_cons_of_pos
      show (mmMin pid c0.2 (d - 1) == bestVal pid s d) = true
      rw [hc0v, bestVal_eq, ← heq]
      exact beq_self_eq_true _
    · rw [decision_eq, hF]
      have hfalse : pyTruthyMove none = false := rfl
      rw [hfalse, if_neg Bool.false_ne_true, GState.actions, hc0]
      rfl
  · obtain ⟨c, hfind, hF⟩ := inv2 hlt
    have hcmem : c ∈ s.children := List.mem_of_find?_eq_some hfind
    have hc1a : c.1 ∈ s.actions := by
      rw [GState.actions]
      exact List.mem_map_of_mem _ hcmem
    have hc1ne : c.1 ≠ 0 := htr c.1 hc1a
    refine ⟨c, ?_, ?_⟩
    · rw [bestVal_eq]
      exact hfind
    · rw [decision_eq, hF]
      have htrue : pyTruthyMove (some c.1) = true := by
        simp [pyTruthyMove, hc1ne]
      rw [htrue, if_pos rfl]

end Decision

section ConcreteStates

/-- A terminal state with distinct utilities for the two players. -/
def sTerm : GState := .mk 0 none none true (XInt.ofInt 7) (XInt.ofInt (-7)) []

def cxLow : GState := .mk 0 none none true (XInt.ofInt 1) ⊥ []

def cxHigh : GState := .mk 0 none none true (XInt.ofInt 5) ⊥ []

/-- Root whose strictly best action is the falsy action `0`: action `3` leads
to utility `1`, action `0` leads to utility `5`. -/
def sFalsyBest : GState := .mk 0 none none false ⊥ ⊥ [(3, cxLow), (0, cxHigh)]

def wLow : GState := .mk 0 none none true (XInt.ofInt 1) ⊥ []

def wHigh : GState := .mk 0 none none true (XInt.ofInt 5) ⊥ []

/-- Root with all-truthy actions `3` and `7`, of values `1` and `5`. -/
def sTruthy : GState := .mk 0 none none false ⊥ ⊥ [(3, wLow), (7, wHigh)]

def c3a : GState := .mk 0 none none true (XInt.ofInt 1) ⊥ []

def c3b : GState := .mk 0 none none true (XInt.ofInt 3) ⊥ []

def c3c : GState := .mk 0 none none true (XInt.ofInt 3) ⊥ []

/-- Root with actions `5, 0, 7` of values `1, 3, 3`: the equal-valued best
pair is `0` and `7`, and the first-seen of them (`0`) is falsy. -/
def sTieFalsy : GState := .mk 0 none none false ⊥ ⊥ [(5, c3a), (0, c3b), (7, c3c)]

/-- Root with truthy actions `5, 4, 7` of values `1, 3, 3`. -/
def sTieTruthy : GState := .mk 0 none none false ⊥ ⊥ [(5, c3a), (4, c3b), (7, c3c)]

def cLoss : GState := .mk 0 none none true ⊥ ⊥ []

/-- Root whose single action leads to a provable loss (`float("-inf")`). -/
def sAllLoss : GState := .mk 0 none none false ⊥ ⊥ [(5, cLoss)]

/-- A terminal state with no legal actions. -/
def sNoActs : GState := .mk 0 none none true ⊥ ⊥ []

/-- Player 0 unplaced, busy board. -/
def sUnplaced : GState := .mk 123456789 none (some 40) false ⊥ ⊥ []

/-- Player 0 on cell 30 with every neighborhood bit clear (all occupied). -/
def sSurrounded : GState := .mk 0 (some 30) none false ⊥ ⊥ []

def c9low : GState := .mk 0 none none true (XInt.ofInt 1) ⊥ []

def c9high : GState := .mk 0 none none true (XInt.ofInt 5) ⊥ []

/-- Root whose internal best move is the falsy action `0`. -/
def sNine : GState := .mk 0 none none false ⊥ ⊥ [(3, c9low), (0, c9high)]

/-- Player 0 placed on cell index 0, busy board. -/
def sZeroLoc : GState := .mk 987654321 (some 0) none false ⊥ ⊥ []

end ConcreteStates

section Claims

/-- Claim C1, counterexample: at `sFalsyBest` (depth 1) the prune-free minimax
values of actions `3` and `0` are `1` and `5`, so the unique best action is
`0`; but `decision` returns `3`, whose value `1` is not the maximum — the
claim as stated fails because the best move `0` is falsy in Python. -/
theorem c1_counterexample :
    sFalsyBest.actions = [3, 0] ∧
    decision 0 sFalsyBest 1 = some 3 ∧
    mmMin 0 cxLow 0 = XInt.ofInt 1 ∧
    mmMin 0 cxHigh 0 = XInt.ofInt 5 ∧
    bestVal 0 sFalsyBest 1 = XInt.ofInt 5 ∧
    ¬ (∃ c ∈ sFalsyBest.children, decision 0 sFalsyBest 1 = some c.1 ∧
        mmMin 0 c.2 (1 - 1) = bestVal 0 sFalsyBest 1) := by
  decide

/-- Claim C1 (amended): for every state, depth ≥ 1 and player id, provided
every root action is truthy (nonzero), the action chosen by `decision` (with
its alpha-beta window updates and cutoffs) has a plain prune-free depth-limited
minimax value equal to the maximum such value over all root actions: pruning
changes only which nodes are visited, never the decided value. -/
theorem decision_value_matches_plain_minimax (pid : Nat) (s : GState) (d : ℤ)
    (hd : 1 ≤ d) (hne : s.actions ≠ []) (htr : ∀ a ∈ s.actions, a ≠ 0) :
    ∃ c ∈ s.children, decision pid s d = some c.1 ∧
      mmMin pid c.2 (d - 1) = bestVal pid s d := by
  obtain ⟨c, hfind, hdec⟩ := decision_finds_first_best pid s d hne htr
  refine ⟨c, List.mem_of_find?_eq_some hfind, hdec, ?_⟩
  have hp := List.find?_some hfind
  exact eq_of_beq hp

/-- Witness for the amended Claim C1 at a concrete root. -/
theorem decision_value_matches_plain_minimax_witness :
    (1 : ℤ) ≤ 1 ∧ sTruthy.actions ≠ [] ∧ (∀ a ∈ sTruthy.actions, a ≠ 0) ∧
    (∃ c ∈ sTruthy.children, decision 0 sTruthy 1 = some c.1 ∧
      mmMin 0 c.2 (1 - 1) = bestVal 0 sTruthy 1) :=
  ⟨by decide, by decide, by decide,
   decision_value_matches_plain_minimax 0 sTruthy 1 (by decide) (by decide) (by decide)⟩

/-- Claim C2: whenever `terminal_test()` holds, both `min_value` and
`max_value` return `state.utility(player_id)` for every alpha, beta and every
depth (including depth ≤ 0): the terminal check takes precedence over the
depth cutoff and the heuristic, and the utility is taken from the fixed
player id's perspective in both the minimizer and the maximizer. -/
theorem terminal_utility_precedence (pid : Nat) (s : GState) (alpha beta : XInt)
    (d : ℤ) (ht : s.terminal_test = true) :
    min_value pid s alpha beta d = s.utility pid ∧
    max_value pid s alpha beta d = s.utility pid :=
  ⟨min_value_terminal pid s alpha beta d ht, max_value_terminal pid s alpha beta d ht⟩

/-- Witness for Claim C2 at a terminal state with negative depth. -/
theorem terminal_utility_precedence_witness :
    sTerm.terminal_test = true ∧
    min_value 0 sTerm ⊥ ⊤ (-1) = sTerm.utility 0 ∧
    max_value 0 sTerm ⊥ ⊤ (-1) = sTerm.utility 0 :=
  ⟨rfl, terminal_utility_precedence 0 sTerm ⊥ ⊤ (-1) rfl⟩

/-- Claim C3, counterexample: at `sTieFalsy` (depth 1) actions `0` and `7`
evaluate to the equal value `3` (the tied best); the first-seen of the tied
pair is `0`, yet `decision` returns `5` (= `actions()[0]`), because the
retained best move `0` is falsy. -/
theorem c3_counterexample :
    sTieFalsy.actions = [5, 0, 7] ∧
    min_value 0 c3a ⊥ ⊤ 0 = XInt.ofInt 1 ∧
    min_value 0 c3b (XInt.ofInt 1) ⊤ 0 = XInt.ofInt 3 ∧
    min_value 0 c3c (XInt.ofInt 3) ⊤ 0 = XInt.ofInt 3 ∧
    decision 0 sTieFalsy 1 = some 5 := by
  decide

/-- Claim C3 (amended): a later action replaces the current best move only on
a strictly greater value, so internally the first-seen best is retained; and
provided every root action is truthy (nonzero), `decision` returns the first
action (in `state.actions()` order) whose successor achieves the maximal
value — first-seen-wins among ties.  (When the retained best move is the
falsy action `0`, the final fallback returns `actions()[0]` instead.) -/
theorem decision_first_seen_wins (pid : Nat) (s : GState) (d : ℤ)
    (hne : s.actions ≠ []) (htr : ∀ a ∈ s.actions, a ≠ 0) :
    ∃ c, s.children.find?
        (fun c => mmMin pid c.2 (d - 1) == bestVal pid s d) = some c ∧
      decision pid s d = some c.1 :=
  decision_finds_first_best pid s d hne htr

/-- Witness for the amended Claim C3: tied values `3, 3` behind actions
`4` and `7`; the first-seen (`4`) is returned. -/
theorem decision_first_seen_wins_witness :
    sTieTruthy.actions ≠ [] ∧ (∀ a ∈ sTieTruthy.actions, a ≠ 0) ∧
    (∃ c, sTieTruthy.children.find?
        (fun c => mmMin 0 c.2 (1 - 1) == bestVal 0 sTieTruthy 1) = some c ∧
      decision 0 sTieTruthy 1 = some c.1) :=
  ⟨by decide, by decide, decision_first_seen_wins 0 sTieTruthy 1 (by decide) (by decide)⟩

/-- Claim C4: if no action improves on the `-∞` sentinel (every successor
evaluates to `float("-inf")`), `decision` falls back to the first action of
`state.actions()`; and whenever any legal action exists, `decision` returns
some element of `state.actions()`. -/
theorem decision_fallback_total (pid : Nat) (s : GState) (d : ℤ)
    (hne : s.actions ≠ []) :
    ((∀ c ∈ s.children, min_value pid c.2 ⊥ ⊤ (d - 1) = ⊥) →
      decision pid s d = s.actions.head?) ∧
    (∃ a ∈ s.actions, decision pid s d = some a) := by
  constructor
  · intro hall
    have hF := decisionLoop_allBot pid d s.children none hall
    rw [decision_eq, hF]
    have hfalse : pyTruthyMove none = false := rfl
    rw [hfalse, if_neg Bool.false_ne_true]
  · obtain ⟨a0, tl, ha⟩ : ∃ a0 tl, s.actions = a0 :: tl := by
      cases hcc : s.actions with
      | nil => exact absurd hcc hne
      | cons x xs => exact ⟨x, xs, rfl⟩
    rcases decisionLoop_mem pid d s.children ⊥ ⊤ ⊥ none with hF | ⟨c, hc, hF⟩
    · refine ⟨a0, by rw [ha]; exact List.mem_cons_self _ _, ?_⟩
      rw [decision_eq, hF]
      have hfalse : pyTruthyMove none = false := rfl
      rw [hfalse, if_neg Bool.false_ne_true, ha]
      rfl
    · by_cases hz : c.1 = 0
      · refine ⟨a0, by rw [ha]; exact List.mem_cons_self _ _, ?_⟩
        rw [decision_eq, hF, hz]
        have hfalse : pyTruthyMove (some 0) = false := rfl
        rw [hfalse, if_neg Bool.false_ne_true, ha]
        rfl
      · refine ⟨c.1, by rw [GState.actions]; exact List.mem_map_of_mem _ hc, ?_⟩
        rw [decision_eq, hF]
        have htrue : pyTruthyMove (some c.1) = true := by simp [pyTruthyMove, hz]
        rw [htrue, if_pos rfl]

/-- Witness for Claim C4: a single action leading to a provable loss. -/
theorem decision_fallback_total_witness :
    sAllLoss.actions ≠ [] ∧
    (∀ c ∈ sAllLoss.children, min_value 0 c.2 ⊥ ⊤ (1 - 1) = ⊥) ∧
    decision 0 sAllLoss 1 = sAllLoss.actions.head? ∧
    (∃ a ∈ sAllLoss.actions, decision 0 sAllLoss 1 = some a) :=
  ⟨by decide, by decide,
   (decision_fallback_total 0 sAllLoss 1 (by decide)).1 (by decide),
   (decision_fallback_total 0 sAllLoss 1 (by decide)).2⟩

/-- Claim C5: on a root state with no legal actions, `get_action` performs no
search — but it does not return cleanly either: the very first statement
`random.choice(state.actions())` raises IndexError on the empty list
(embedded as the error result), before any `decision` call and before
anything is published. -/
theorem get_action_empty_raises (pid : Nat) (s : GState) (pick fuel : Nat)
    (h : s.actions = []) : get_action pid s pick fuel = Except.error () := by
  simp [get_action, h]

/-- Witness for Claim C5 at a concrete terminal state. -/
theorem get_action_empty_raises_witness :
    sNoActs.actions = [] ∧ get_action 0 sNoActs 0 3 = Except.error () :=
  ⟨rfl, get_action_empty_raises 0 sNoActs 0 3 rfl⟩

/-- Claim C6: if `locs[player]` is `None`, `liberty` returns exactly 24,
regardless of the contents of the board. -/
theorem liberty_unplaced (s : GState) (p : Nat) (h : s.locs p = none) :
    liberty s p = 24 := by
  simp [liberty, h, pyFalsyLoc]

/-- Witness for Claim C6 on a busy board. -/
theorem liberty_unplaced_witness :
    sUnplaced.locs 0 = none ∧ liberty sUnplaced 0 = 24 :=
  ⟨rfl, liberty_unplaced sUnplaced 0 rfl⟩

theorem liberty_le_24 (s : GState) (p : Nat) : liberty s p ≤ 24 := by
  rw [liberty]
  split
  · exact le_refl 24
  · split
    · exact le_refl 24
    · calc libertyActions.countP _ ≤ libertyActions.length := List.countP_le_length _
        _ = 24 := rfl

/-- Claim C7: for every state and player id, `heuristic` is the difference of
the two liberty counts and lies in `[-24, 24]`. -/
theorem heuristic_bounded (pid : Nat) (s : GState) :
    heuristic pid s = (liberty s pid : ℤ) - (liberty s (1 - pid) : ℤ) ∧
    -24 ≤ heuristic pid s ∧ heuristic pid s ≤ 24 := by
  refine ⟨rfl, ?_, ?_⟩
  · have ha := liberty_le_24 s pid
    have hb := liberty_le_24 s (1 - pid)
    show -24 ≤ (liberty s pid : ℤ) - (liberty s (1 - pid) : ℤ)
    omega
  · have ha := liberty_le_24 s pid
    have hb := liberty_le_24 s (1 - pid)
    show (liberty s pid : ℤ) - (liberty s (1 - pid) : ℤ) ≤ 24
    omega

/-- Claim C8: for a placed, truthy (nonzero) location, `liberty` counts the
offsets `d` of the fixed 24-element tuple with `(d + loc) > 0` and bit
`(d + loc)` set in the board; in particular it is 0 when all 24 neighborhood
bits are clear (player surrounded by occupied cells). -/
theorem liberty_placed_count (s : GState) (p : Nat) (loc : Nat)
    (h : s.locs p = some loc) (hz : loc ≠ 0) :
    liberty s p = libertyActions.countP
      (fun a => decide (0 < a + (loc : ℤ)) && s.board.testBit (a + (loc : ℤ)).toNat) ∧
    ((∀ a ∈ libertyActions, s.board.testBit (a + (loc : ℤ)).toNat = false) →
      liberty s p = 0) := by
  have h1 : liberty s p = libertyActions.countP
      (fun a => decide (0 < a + (loc : ℤ)) && s.board.testBit (a + (loc : ℤ)).toNat) := by
    simp [liberty, h, pyFalsyLoc, hz]
  refine ⟨h1, fun hall => ?_⟩
  rw [h1]
  rw [List.countP_eq_zero]
  intro a ha
  simp [hall a ha]

/-- Witness for Claim C8: all 24 neighborhood cells occupied gives count 0. -/
theorem liberty_placed_count_witness :
    sSurrounded.locs 0 = some 30 ∧ (30 : Nat) ≠ 0 ∧
    (∀ a ∈ libertyActions, sSurrounded.board.testBit (a + (30 : ℤ)).toNat = false) ∧
    liberty sSurrounded 0 = 0 :=
  ⟨rfl, by decide, by decide,
   (liberty_placed_count sSurrounded 0 30 rfl (by decide)).2 (by decide)⟩

/-- Claim C9: at `sNine` the strictly best action is the falsy action `0`
(value `5` against `1`), the loop retains it as `best_move`, yet `decision`
discards it and returns `actions()[0] = 3`: the final fallback is triggered
by the Python truthiness of the best move, not only by the
no-action-improved condition. -/
theorem decision_discards_falsy_best :
    sNine.actions = [3, 0] ∧
    decisionLoop 0 1 sNine.children ⊥ ⊤ ⊥ none = some 0 ∧
    min_value 0 c9low ⊥ ⊤ 0 = XInt.ofInt 1 ∧
    min_value 0 c9high (XInt.ofInt 1) ⊤ 0 = XInt.ofInt 5 ∧
    decision 0 sNine 1 = some 3 := by
  decide

/-- Claim C10: `liberty` returns 24 whenever `locs[player]` is falsy in
Python — not only the `None` sentinel but also a player actually placed on
cell index 0 — regardless of the board contents; the 24-offset neighborhood
scan is never applied to such a location. -/
theorem liberty_falsy_loc (s : GState) (p : Nat)
    (h : pyFalsyLoc (s.locs p) = true) : liberty s p = 24 := by
  simp [liberty, h]

/-- Witness for Claim C10: player on cell 0 over a busy board. -/
theorem liberty_falsy_loc_witness :
    sZeroLoc.locs 0 = some 0 ∧ pyFalsyLoc (sZeroLoc.locs 0) = true ∧
    liberty sZeroLoc 0 = 24 :=
  ⟨rfl, rfl, liberty_falsy_loc sZeroLoc 0 rfl⟩

end Claims

end Isolation
